import Mathlib

/-!
Verification of the `mspandas` repository: a shallow embedding of the
table-layout logic in `pandasPPT.py`, `pandasDOC.py`, `style.py`,
`utils/doc/docFunctions.py` and `utils/ppt/functions.py`, with theorems
settling the frozen claims about it.
-/

namespace Mspandas

/-! ## Cell margins (`margins_master`)

Three copies of the cell-margin table exist in the source: inline in
`Handler.create_table` (pandasPPT.py), in `utils/doc/docFunctions.py`
and in `utils/ppt/functions.py`.  Inch values are embedded as exact
rationals (0.05 = 1/20, 0.1 = 1/10, 0.15 = 3/20, 0.025 = 1/40). -/

structure Margins where
  top : ℚ
  bottom : ℚ
  left : ℚ
  right : ℚ
deriving DecidableEq, Repr

/-- `margins_master` defined inline in `Handler.create_table` (pandasPPT.py). -/
def marginsMasterPandasPPT : List (String × Margins) :=
  [ ("normal", ⟨1/20, 1/20, 1/10, 1/10⟩),
    ("none",   ⟨0, 0, 0, 0⟩),
    ("narrow", ⟨1/20, 1/20, 1/20, 1/20⟩),
    ("wide",   ⟨3/20, 3/20, 3/20, 3/20⟩),
    ("tight",  ⟨1/40, 1/40, 1/40, 1/40⟩) ]

/-- `margins_master` in `utils/doc/docFunctions.py`. -/
def marginsMasterDoc : List (String × Margins) :=
  [ ("normal", ⟨1/20, 1/20, 1/10, 1/10⟩),
    ("none",   ⟨0, 0, 0, 0⟩),
    ("narrow", ⟨1/20, 1/20, 1/20, 1/20⟩),
    ("wide",   ⟨3/20, 3/20, 3/20, 3/20⟩),
    ("tight",  ⟨1/40, 1/40, 1/40, 1/40⟩) ]

/-- `margins_master` in `utils/ppt/functions.py`. -/
def marginsMasterPpt : List (String × Margins) :=
  [ ("normal", ⟨1/20, 1/20, 1/10, 1/10⟩),
    ("none",   ⟨0, 0, 0, 0⟩),
    ("narrow", ⟨1/20, 1/20, 1/20, 1/20⟩),
    ("wide",   ⟨3/20, 3/20, 3/20, 3/20⟩),
    ("tight",  ⟨1/40, 1/40, 1/40, 1/40⟩) ]

/-! ## Style constants (`style.py`) -/

/-- The scalar named colors of class `RGB` in `style.py`. -/
def rgbNamed : List (String × List ℕ) :=
  [ ("white", [255, 255, 255]),
    ("grey_light", [245, 245, 245]),
    ("grey_light2", [235, 235, 235]),
    ("grey", [150, 150, 150]),
    ("grey_dark", [80, 80, 80]) ]

/-- `RGB.colorbar_colorbrewer` in `style.py`. -/
def rgbColorbarColorbrewer : List (List ℕ) :=
  [ [141,211,199], [255,255,179], [190,186,218], [251,128,114],
    [128,177,211], [253,180,98], [179,222,105], [252,205,229],
    [217,217,217], [188,128,189], [204,235,197], [255,237,111] ]

/-- `RGB.colorbar_microsoft` in `style.py`. -/
def rgbColorbarMicrosoft : List (List ℕ) :=
  [ [255, 255, 0], [146, 208, 80], [255, 192, 0], [112, 48, 160],
    [0, 176, 80], [0, 32, 96], [0, 112, 192], [192, 0, 0],
    [0, 176, 240], [255, 0, 0] ]

/-- The scalar named colors of class `Hex` in `style.py`. -/
def hexNamed : List (String × String) :=
  [ ("white", "#FFFFFF"),
    ("grey_light", "#F5F5F5"),
    ("grey_light2", "#EBEBEB"),
    ("grey", "#969696"),
    ("grey_dark", "#505050") ]

/-- `Hex.colorbar_colorbrewer` in `style.py` (lowercase hex digits in the source). -/
def hexColorbarColorbrewer : List String :=
  [ "#8dd3c7", "#ffffb3", "#bebada", "#fb8072", "#80b1d3", "#fdb462",
    "#b3de69", "#fccde5", "#d9d9d9", "#bc80bd", "#ccebc5", "#ffed6f" ]

/-- `Hex.colorbar_microsoft` in `style.py`. -/
def hexColorbarMicrosoft : List String :=
  [ "#FFFF00", "#92D050", "#FFC000", "#7030A0", "#00B050", "#002060",
    "#0070C0", "#C00000", "#00B0F0", "#FF0000" ]

/-- One uppercase hexadecimal digit. -/
def hexDigit (n : ℕ) : Char :=
  if n < 10 then Char.ofNat (48 + n) else Char.ofNat (55 + n)

/-- Two-digit uppercase hexadecimal encoding of one byte. -/
def hexByte (n : ℕ) : String :=
  String.mk [hexDigit (n / 16), hexDigit (n % 16)]

/-- `'#'` followed by the six-digit (uppercase) hexadecimal encoding of an
RGB triple, as in the claim's example `[245,245,245] ↦ "#F5F5F5"`. -/
def hexEncode (rgb : List ℕ) : String :=
  "#" ++ String.join (rgb.map hexByte)

/-- Case-insensitive normalization: uppercase the ASCII letters of a string. -/
def upperAscii (s : String) : String :=
  String.mk (s.data.map Char.toUpper)

/-! ## `format_cell` error behaviour
(`utils/doc/docFunctions.py` and `utils/ppt/functions.py`)

The runtime type of the `fill_color` / `font_color` arguments drives the
`isinstance` dispatch; we embed the four possibilities the dispatch
distinguishes.  `none` stands for Python `None` (the default), `other`
for any value of a type outside the tested ones. -/

inductive PyColor where
  /-- an `MSO_THEME_COLOR` enum value (`docx/pptx.enum.base.EnumValue`) -/
  | themeEnum (code : ℕ)
  /-- a tuple of integers -/
  | tup (vals : List ℕ)
  /-- a string (hex code) -/
  | str (s : String)
  /-- Python `None` -/
  | none
  /-- a value of any other type -/
  | other
deriving DecidableEq, Repr

/-- The errors `format_cell` can raise explicitly. -/
inductive FormatCellError where
  /-- `ValueError('Incorrect value for fill_color. ...')` -/
  | fillColorError
  /-- `ValueError('Incorrect value for font_color. ...')` -/
  | fontColorError
deriving DecidableEq, Repr

/-- `isinstance(c, EnumValue)`. -/
def PyColor.isEnum : PyColor → Bool
  | .themeEnum _ => true
  | _ => false

/-- `isinstance(c, tuple)`. -/
def PyColor.isTuple : PyColor → Bool
  | .tup _ => true
  | _ => false

/-- `isinstance(c, str)`. -/
def PyColor.isStr : PyColor → Bool
  | .str _ => true
  | _ => false

/-- `c is None` (Python truth of `not c == None` negated). -/
def PyColor.isNone : PyColor → Bool
  | .none => true
  | _ => false

/-- Error behaviour of `format_cell` in `utils/doc/docFunctions.py`: the
`fill` block dispatches on the runtime type of `fill_color` and raises
`ValueError` on fall-through of the `isinstance` chain; a raise propagates
immediately, so the later `font_color` block (tuple/str dispatch, guarded
by `not font_color == None`) runs only when the fill block did not raise.
Margin setting, paragraph/run access and the external library calls
cannot raise these errors. -/
def docFormatCellRun (fill : Bool) (fill_color : PyColor)
    (font_color : PyColor) : Except FormatCellError Unit :=
  if fill && !fill_color.isEnum && !fill_color.isTuple && !fill_color.isStr then
    Except.error .fillColorError
  else if !font_color.isNone && !font_color.isTuple && !font_color.isStr then
    Except.error .fontColorError
  else Except.ok ()

/-- Error behaviour of `format_cell` in `utils/ppt/functions.py`: same
dispatch structure as the docx variant (the pptx fill branch assigns to
`fore_color` instead of appending shading XML, which cannot raise). -/
def pptFormatCellRun (fill : Bool) (fill_color : PyColor)
    (font_color : PyColor) : Except FormatCellError Unit :=
  if fill && !fill_color.isEnum && !fill_color.isTuple && !fill_color.isStr then
    Except.error .fillColorError
  else if !font_color.isNone && !font_color.isTuple && !font_color.isStr then
    Except.error .fontColorError
  else Except.ok ()

/-! ## Column-width balancing (`Handler.create_table`, pandasPPT.py 610-638)

After the per-column widths are computed, `create_table` checks whether
their sum overflows the template table shape's width and, if so, reduces
every column by `(col.width / w_columns_over) * w_overflow`; it then
checks whether the sum falls short and, if so, extends every column by
`(col.width / w_columns_under) * w_deficit`.  The source rounds each
adjustment to an integer EMU (`pptx.util.Emu(round(...))`); following the
claim's exact-rational-arithmetic reading, the rounding is dropped and
widths live in `ℚ`.  Each loop updates every column once from its width
at loop entry (the divisor `w_columns_over` / `w_columns_under` is fixed
before the loop), so the loop is a `map`. -/

/-- The two width-adjustment passes at the end of `Handler.create_table`:
first the overflow reduction (lines 610-623), then the deficit extension
(lines 625-638), the second keyed on the recomputed running sum. -/
def adjustColumnWidths (table_width : ℚ) (widths : List ℚ) : List ℚ :=
  let w_columns := widths.sum
  let widths1 :=
    if w_columns > table_width then
      let w_overflow := w_columns - table_width
      let w_columns_over := w_columns
      widths.map (fun w => w - (w / w_columns_over) * w_overflow)
    else widths
  let w_columns1 := widths1.sum
  if w_columns1 < table_width then
    let w_deficit := table_width - w_columns1
    let w_columns_under := w_columns1
    widths1.map (fun w => w + (w / w_columns_under) * w_deficit)
  else widths1

/-! ## Cell accesses of `Handler.create_table` (pandasPPT.py)

`create_table` inserts a table of `num_rows × num_cols` cells
(lines 352-362) and then walks it in four passes: the header pass
(lines 381-428), the index pass (lines 451-504), the data pass
(lines 506-548) and the totals-formatting passes (lines 550-580).
We record every `table.cell(r, c)` access each pass performs, as a pair
`(r, c)`, parametrized by the shape of the (totals-augmented) data frame.
In each pass the `table.cell` call happens before any `continue`, so the
full iteration ranges are recorded. -/

structure TableParams where
  /-- `len(df)` after the totals rows/columns are appended -/
  nRows : ℕ
  /-- `len(df.columns)` after the totals rows/columns are appended -/
  nCols : ℕ
  /-- `df.columns.nlevels` -/
  colNlevels : ℕ
  /-- `df.index.nlevels` -/
  idxNlevels : ℕ
  header : Bool
  index : Bool
  column_totals : Bool
  row_totals : Bool

/-- `num_rows = len(df)` plus `df.columns.nlevels` when `header` (lines 353-357). -/
def numRows (p : TableParams) : ℕ :=
  p.nRows + (if p.header then p.colNlevels else 0)

/-- `num_cols = len(df.columns)` plus `df.index.nlevels` when `index` (lines 354-359). -/
def numCols (p : TableParams) : ℕ :=
  p.nCols + (if p.index then p.idxNlevels else 0)

/-- Header pass: `table.cell(level, i)` for every `level < df.columns.nlevels`
and `i < num_cols` (lines 382-384). -/
def headerAccesses (p : TableParams) : List (ℕ × ℕ) :=
  if p.header then
    (List.range p.colNlevels).flatMap (fun level =>
      (List.range (numCols p)).map (fun i => (level, i)))
  else []

/-- Index pass: `table.cell(i, level)` for every `level < df.index.nlevels`
and `i < num_rows` (lines 452-454). -/
def indexAccesses (p : TableParams) : List (ℕ × ℕ) :=
  if p.index then
    (List.range p.idxNlevels).flatMap (fun level =>
      (List.range (numRows p)).map (fun i => (i, level)))
  else []

/-- Data pass: `table.cell(row + colNlevels·[header], col + idxNlevels·[index])`
for every `row < df.shape[0]`, `col < df.shape[1]` (lines 509-518). -/
def dataAccesses (p : TableParams) : List (ℕ × ℕ) :=
  (List.range p.nRows).flatMap (fun row =>
    (List.range p.nCols).map (fun col =>
      (row + (if p.header then p.colNlevels else 0),
       col + (if p.index then p.idxNlevels else 0))))

/-- Column-totals formatting pass: `table.cell(num_rows-1, i + idxNlevels·[index])`
for `i < num_cols - df.index.nlevels` (lines 551-556; `range` of a negative
Python int is empty, matching truncated `ℕ` subtraction). -/
def columnTotalsAccesses (p : TableParams) : List (ℕ × ℕ) :=
  if p.column_totals then
    (List.range (numCols p - p.idxNlevels)).map (fun i =>
      (numRows p - 1, if p.index then i + p.idxNlevels else i))
  else []

/-- Row-totals formatting pass: `table.cell(i + colNlevels·[header], num_cols-1)`
for `i < num_rows - df.columns.nlevels` (lines 566-571). -/
def rowTotalsAccesses (p : TableParams) : List (ℕ × ℕ) :=
  if p.row_totals then
    (List.range (numRows p - p.colNlevels)).map (fun i =>
      ((if p.header then i + p.colNlevels else i), numCols p - 1))
  else []

/-- All `table.cell` accesses of the four populating passes of
`Handler.create_table`. -/
def createTableCellAccesses (p : TableParams) : List (ℕ × ℕ) :=
  headerAccesses p ++ indexAccesses p ++ dataAccesses p ++
    columnTotalsAccesses p ++ rowTotalsAccesses p

/-! ## Cell texts written by `Handler.create_table`

Every populating write is `c.text = label or ' '` (lines 400, 475) or
`c.text = mat[row,col] or ' '` (line 519).  By the time these run, all
frame values and axis level values have been converted to strings
(lines 267-338); axis *names* may still be Python `None`, so a destined
label is an `Option String`. -/

/-- Python `label or ' '` for `label` a string or `None`: `None` and the
empty string are falsy, any other string is returned unchanged. -/
def pyOrSpace : Option String → String
  | Option.none => " "
  | Option.some s => if s = "" then " " else s

/-- The header-pass label destined for cell `(level, i)`, or `Option.none`
when the branch `continue`s without writing (lines 385-399).  `colValue
level j` is `df.columns.get_level_values(level)[j]` (a string after the
encoding pass); `columnsNames` is `df.columns.names`.  Python's
`i <= df.index.nlevels-1` / `i > df.index.nlevels-1` are rendered with
`i + 1` since `df.index.nlevels ≥ 1` always holds in pandas. -/
def headerCellLabel (index : Bool) (idxNlevels : ℕ)
    (columnsNames : List (Option String)) (colValue : ℕ → ℕ → String)
    (level i : ℕ) : Option (Option String) :=
  if index ∧ i + 1 ≤ idxNlevels then
    if columnsNames.any (fun nm => nm.isSome) then
      some (columnsNames.getD level Option.none)
    else some (some " ")
  else if index ∧ i < idxNlevels then Option.none
  else if index then some (some (colValue level (i - idxNlevels)))
  else some (some (colValue level i))

/-- The index-pass label destined for cell `(i, level)`, or `Option.none`
when the branch `continue`s without writing (lines 456-474).  In the
no-names sub-branch the code reads `if header: continue else: label=' '`,
and `header` is true throughout that branch, so it always `continue`s. -/
def indexCellLabel (header : Bool) (colNlevels : ℕ)
    (indexNames : List (Option String)) (idxValue : ℕ → ℕ → String)
    (level i : ℕ) : Option (Option String) :=
  if header ∧ i + 1 = colNlevels then
    if indexNames.any (fun nm => nm.isSome) then
      some (indexNames.getD level Option.none)
    else Option.none
  else if header ∧ i < colNlevels then Option.none
  else if header then some (some (idxValue level (i - colNlevels)))
  else some (some (idxValue level i))

/-- The data-pass text for cell `(row, col)`:
`mat[row,col] or ' '` where `mat = df.fillna(' ').as_matrix()` holds
strings (line 519). -/
def dataCellText (matValue : String) : String :=
  pyOrSpace (some matValue)

/-! ## Header merging (`Handler.create_table`, pandasPPT.py 430-448)

For one `merge_header` entry, after `start` and `end` have been resolved
to integer column positions (offset by `df.index.nlevels` when `index`):

    length = end - start + 1
    cells = [c for c in table.rows[level].cells][start:end]
    cells[0]._tc.set('gridSpan', str(length))
    for c in cells[1:]:
        c._tc.set('hMerge', '1')

The Python slice `[start:end]` excludes position `end`.  We record which
column gets the `gridSpan` attribute and with which value, and which
columns get `hMerge`; an empty slice makes `cells[0]` raise `IndexError`,
modelled as `Option.none`. -/

/-- The XML attribute writes of one `merge_header` entry: `some (g, len,
hs)` means column `g` gets `gridSpan = len` and the columns in `hs` get
`hMerge = '1'`; `Option.none` is the `IndexError` of `cells[0]` on an
empty slice. -/
def mergeHeaderOps (numCols start stop : ℕ) : Option (ℕ × ℕ × List ℕ) :=
  let length := stop - start + 1
  let cells := ((List.range numCols).take stop).drop start
  match cells with
  | [] => Option.none
  | c0 :: rest => some (c0, length, rest)

/-! ## Mutation of the caller's data frame by `Handler.create_table`
(pandasPPT.py 204-338)

The Python name `df` initially aliases the caller's object.  When
`column_totals` or `row_totals` is requested, `df = pd.concat(...)`
(lines 225, 248) rebinds `df` to a fresh frame before any in-place
operation, so the caller's object survives.  Otherwise the numeric-to-
string conversion (line 277, `df.loc[:,col] = df[col].fillna(0).apply(
lambda x: fmt.format(x))`), the char-column encoding pass (lines 285-290,
`df[col] = ...`) and the axis replacements (lines 313-315 / 335-337)
mutate the caller's object in place.  We model the caller-visible final
state of string-labelled frames. -/

inductive PyVal where
  | num (q : ℚ)
  | str (s : String)
  /-- NaN / missing -/
  | none
deriving DecidableEq, Repr

structure PFrame where
  index : List String
  columns : List String
  /-- one flag per column: is the column in `df._get_numeric_data().columns` -/
  colIsNumeric : List Bool
  values : List (List PyVal)
deriving DecidableEq, Repr

/-- The in-place per-cell effect of the conversion loop (lines 267-291):
a numeric column is `fillna(0)` and formatted with the number format; a
char column is `fillna('')` and encoded (identity on strings; the
`astype(str)` fallback stringifies anything else). -/
def mutateCell (isNumeric : Bool) (fmt : ℚ → String) : PyVal → PyVal
  | .num q => if isNumeric then .str (fmt q) else .str (toString q.num)
  | .str s => .str s
  | .none => if isNumeric then .str (fmt 0) else .str ""

/-- The in-place effect of the conversion loop on the whole frame; the
axis-replacement passes (lines 296-338) rewrite already-string labels to
themselves, so string-labelled axes are unchanged. -/
def createTableDfMutation (df : PFrame) (fmt : ℚ → String) : PFrame :=
  { df with values := df.values.map (fun row =>
      (row.zip df.colIsNumeric).map (fun vc => mutateCell vc.2 fmt vc.1)) }

/-- The state of the caller's data frame object after `create_table`
returns: untouched when a totals concat rebound `df` first, otherwise
mutated in place by the conversion loop. -/
def createTableCallerFrame (df : PFrame) (column_totals row_totals : Bool)
    (fmt : ℚ → String) : PFrame :=
  if column_totals || row_totals then df else createTableDfMutation df fmt

/-! ## `pandasDOC.Table.add_totals` (pandasDOC.py 176-230)

Embedded for flat (single-level, string-labelled) frames with numeric
(nullable) values: the multiindex dummy-level loop (`range(nlevels-1)`)
and the categorical-index `except TypeError` branch do not fire on a flat
string axis.  Aggregation methods are functions `List ℚ → ℚ` applied to a
null-filled column; `totals_aggmap` is a partial map from column name to
method. -/

structure Frame where
  index : List String
  indexName : Option String
  columns : List String
  columnsName : Option String
  values : List (List (Option ℚ))
deriving DecidableEq, Repr

/-- Column `j` of a row-major value matrix (missing entries of a ragged
row read as null). -/
def colOfValues (values : List (List (Option ℚ))) (j : ℕ) : List (Option ℚ) :=
  values.map (fun row => row.getD j Option.none)

/-- Value matrix of `data.T`. -/
def transposeValues (values : List (List (Option ℚ))) (ncols : ℕ) :
    List (List (Option ℚ)) :=
  (List.range ncols).map (fun j => colOfValues values j)

/-- `data.T`: axes swapped, values transposed. -/
def Frame.T (f : Frame) : Frame :=
  ⟨f.columns, f.columnsName, f.index, f.indexName,
    transposeValues f.values f.columns.length⟩

/-- One entry of `data.fillna(0).agg({col: ...})`: the method applied to
the named column (labels resolve to their first position) with nulls
filled as 0. -/
def aggColumn (f : Frame) (method : List ℚ → ℚ) (col : String) : ℚ :=
  method ((colOfValues f.values (f.columns.indexOf col)).map
    (fun v => v.getD 0))

/-- `Table.add_totals(data=f, totals_label, totals_method, totals_aggmap,
axis)`: transpose for axis 1; build the `c_totals` one-row frame from
`data.fillna(0).agg({col: totals_aggmap.get(col, totals_method) for col
in data.columns}).rename(totals_label).to_frame().T`; `pd.concat` it
below the data; `reindex(ordered_columns, axis=1)`; restore
`data.index.names`; transpose back for axis 1. -/
def addTotals (f : Frame) (totals_label : String)
    (totals_method : List ℚ → ℚ)
    (totals_aggmap : String → Option (List ℚ → ℚ)) (axis : ℕ) : Frame :=
  let data := if axis = 1 then f.T else f
  let names := data.indexName
  let ordered_columns := data.columns
  let c_totals : Frame :=
    ⟨[totals_label], Option.none, data.columns, Option.none,
      [data.columns.map (fun col =>
        some (aggColumn data ((totals_aggmap col).getD totals_method) col))]⟩
  let data1 : Frame :=
    ⟨data.index ++ c_totals.index, Option.none, data.columns,
      data.columnsName, data.values ++ c_totals.values⟩
  let data2 : Frame :=
    ⟨data1.index, data1.indexName, ordered_columns, data1.columnsName,
      data1.values.map (fun row => ordered_columns.map (fun col =>
        row.getD (data1.columns.indexOf col) Option.none))⟩
  let data3 : Frame := { data2 with indexName := names }
  if axis = 1 then data3.T else data3

/-- The totals row the claim describes for axis 0: at position `j` with
column name `col`, the aggregate of column `j` (nulls as 0) under the
mapped method when `col` is in `totals_aggmap`, else `totals_method`. -/
def claimedTotalsRow (f : Frame) (totals_method : List ℚ → ℚ)
    (totals_aggmap : String → Option (List ℚ → ℚ)) : List (Option ℚ) :=
  f.columns.enum.map (fun jc =>
    some (((totals_aggmap jc.2).getD totals_method)
      ((colOfValues f.values jc.1).map (fun v => v.getD 0))))

/-- The totals entry the claim describes for one row (axis 1): the row's
values with nulls as 0, aggregated under the method mapped to the row's
index label when present, else `totals_method`. -/
def claimedRowTotal (name : String) (row : List (Option ℚ))
    (totals_method : List ℚ → ℚ)
    (totals_aggmap : String → Option (List ℚ → ℚ)) : ℚ :=
  ((totals_aggmap name).getD totals_method) (row.map (fun v => v.getD 0))

/-! ## Run-merging in `pandasDOC.Table.style_index` (pandasDOC.py 436-487)

For one level `n` of one axis, the auto-merging section is a state
machine over `i in range(numcells)` with state `(merge, mergestart,
mergespan)`.  `l` is the level's value list
(`index.get_level_values(n)`, strings after `format_index`), `offset`
the number of leading header/index cells on that axis, and `texts i`
the text of table cell `i` on the level's line before the loop runs.
Each merge performs `c.merge(table.cell(i+mergespan-1, n))` — a span of
`mergespan` cells starting at `i` — and then resets `c.text` to
`origin_cell_text`, the text read from the origin cell just before the
merge; merged spans are disjoint, so the pre-loop `texts` is the text
each origin capture sees.  A merge is recorded as
`(mergestart, mergespan, origin_cell_text)`. -/

/-- `mergespan` as computed at lines 456-462: default `len(index)-j`,
otherwise `k+1` for the first `k` with `index[j+1+k] != index[j]` —
i.e. one more than the length of the equal prefix of `index[j+1:]`
(the two agree for `j < len(index)`, the only positions where the code
computes a span). -/
def runLen (l : List String) (j : ℕ) : ℕ :=
  1 + ((l.drop (j + 1)).takeWhile (fun d => d == l.getD j "")).length

/-- The auto-merging section of `style_index` for one level: one
recursive step per loop iteration (`fuel` = remaining iterations,
`i` = current cell).  Python's `j < len(index)-1` over ints is rendered
`j + 1 < l.length`. -/
def styleIndexLoop (l : List String) (texts : ℕ → String) (offset : ℕ) :
    ℕ → ℕ → Bool → ℕ → ℕ → List (ℕ × ℕ × String)
  | 0, _, _, _, _ => []
  | fuel + 1, i, merge, mergestart, mergespan =>
    if offset ≤ i then
      let j := i - offset
      if j + 1 < l.length then
        let equal := l.getD j "" == l.getD (j + 1) ""
        if !merge && equal then
          (i, runLen l j, texts i) ::
            styleIndexLoop l texts offset fuel (i + 1) true i (runLen l j)
        else if merge && !equal then
          styleIndexLoop l texts offset fuel (i + 1) false mergestart mergespan
        else
          styleIndexLoop l texts offset fuel (i + 1) merge mergestart mergespan
      else if merge ∧ mergestart < i ∧ i < mergestart + mergespan - 1 then
        styleIndexLoop l texts offset fuel (i + 1) merge mergestart mergespan
      else if merge ∧ mergestart < i ∧ i = mergestart + mergespan - 1 then
        styleIndexLoop l texts offset fuel (i + 1) false mergestart mergespan
      else
        styleIndexLoop l texts offset fuel (i + 1) merge mergestart mergespan
    else
      styleIndexLoop l texts offset fuel (i + 1) merge mergestart mergespan

/-- All merges performed by the auto-merging section for one level:
the loop starting from `i = 0` with a clear merge state. -/
def styleIndexMerges (l : List String) (texts : ℕ → String)
    (offset numcells : ℕ) : List (ℕ × ℕ × String) :=
  styleIndexLoop l texts offset numcells 0 false 0 0

/-- The scan the loop implements, stated directly on the value list: at
`j`, two equal adjacent values start a run of `runLen l j` cells, which
is recorded and skipped; otherwise move one cell on. -/
def maximalRunsFrom (l : List String) (j : ℕ) : List (ℕ × ℕ) :=
  if j + 1 < l.length then
    if l.getD j "" == l.getD (j + 1) "" then
      (j, runLen l j) :: maximalRunsFrom l (j + runLen l j)
    else maximalRunsFrom l (j + 1)
  else []
termination_by l.length - j
decreasing_by
  · have h1 : 1 ≤ runLen l j := Nat.le_add_right 1 _
    omega
  · omega

/-- `(s, k)` delimits a maximal run of equal adjacent values in `l`
(the claim's notion): length `k ≥ 2`, within bounds, all `k` values
equal, and not extendable on either side. -/
def isMaximalRun (l : List String) (s k : ℕ) : Prop :=
  2 ≤ k ∧ s + k ≤ l.length ∧
  (∀ t, t < k → l.getD (s + t) "" = l.getD s "") ∧
  (s = 0 ∨ l.getD (s - 1) "" ≠ l.getD s "") ∧
  (s + k = l.length ∨ l.getD (s + k) "" ≠ l.getD s "")

instance (l : List String) (s k : ℕ) : Decidable (isMaximalRun l s k) := by
  unfold isMaximalRun
  infer_instance

end Mspandas

namespace Mspandas

/-! ## Theorems for C9, C8, C7 -/

/-- C9: the three copies of the `margins_master` cell-margin table (inline
in `Handler.create_table`, in `utils/doc/docFunctions.py`, and in
`utils/ppt/functions.py`) are equal as mappings: each has exactly the keys
`normal`, `none`, `narrow`, `wide`, `tight`, and for every key the top,
bottom, left and right inch values coincide across the three copies. -/
theorem margins_master_copies_equal :
    marginsMasterPandasPPT = marginsMasterDoc ∧
    marginsMasterDoc = marginsMasterPpt ∧
    marginsMasterPandasPPT.map Prod.fst =
      ["normal", "none", "narrow", "wide", "tight"] :=
  ⟨rfl, rfl, rfl⟩

/-- C8 counterexample: the first entry of `Hex.colorbar_colorbrewer` is
`"#8dd3c7"`, which is not `'#'` followed by the six-digit hexadecimal
encoding (as exemplified by `[245,245,245] ↦ "#F5F5F5"`, i.e. uppercase)
of the first entry `[141,211,199]` of `RGB.colorbar_colorbrewer`, which
is `"#8DD3C7"`. -/
theorem hex_colorbrewer_not_uppercase_encoding :
    hexColorbarColorbrewer.get? 0 = some "#8dd3c7" ∧
    (rgbColorbarColorbrewer.get? 0).map hexEncode = some "#8DD3C7" ∧
    hexColorbarColorbrewer.get? 0 ≠ (rgbColorbarColorbrewer.get? 0).map hexEncode := by
  decide

/-- C8 (amended): every named `Hex` color equals `'#'` followed by the
six-digit hexadecimal encoding of the same-named `RGB` triple *up to
letter case* (the named constants and the microsoft list are uppercase in
the source, the colorbrewer list is lowercase); the `colorbar_colorbrewer`
and `colorbar_microsoft` lists of `Hex` have the same length as the
same-named lists of `RGB` and correspond element-wise under the encoding
up to case. -/
theorem hex_rgb_correspondence_up_to_case :
    hexNamed.map Prod.fst = rgbNamed.map Prod.fst ∧
    (hexNamed.map Prod.snd = (rgbNamed.map Prod.snd).map hexEncode) ∧
    hexColorbarColorbrewer.length = rgbColorbarColorbrewer.length ∧
    hexColorbarColorbrewer.map upperAscii =
      rgbColorbarColorbrewer.map hexEncode ∧
    hexColorbarMicrosoft.length = rgbColorbarMicrosoft.length ∧
    hexColorbarMicrosoft.map upperAscii =
      rgbColorbarMicrosoft.map hexEncode := by
  decide

/-- C7: both `format_cell` variants raise the fill-color `ValueError`,
propagated synchronously, exactly when a fill is requested and
`fill_color` is neither a theme-color enum value, nor a tuple, nor a
string; for any `fill_color` of one of those three types that branch is
unreachable. -/
theorem format_cell_fill_color_error_iff (fill : Bool)
    (fill_color font_color : PyColor) :
    (docFormatCellRun fill fill_color font_color =
        Except.error .fillColorError ∧
     pptFormatCellRun fill fill_color font_color =
        Except.error .fillColorError) ↔
    (fill = true ∧ fill_color.isEnum = false ∧ fill_color.isTuple = false ∧
     fill_color.isStr = false) := by
  cases fill <;> cases fill_color <;> cases font_color <;>
    simp [docFormatCellRun, pptFormatCellRun, PyColor.isEnum,
      PyColor.isTuple, PyColor.isStr, PyColor.isNone]

/-! ## Theorem for C1 -/

lemma sum_map_mul_right_q (l : List ℚ) (c : ℚ) :
    (l.map (fun w => w * c)).sum = l.sum * c := by
  induction l with
  | nil => simp
  | cons a t ih => simp [ih]; ring

/-- With exact arithmetic both adjustment passes amount to scaling every
width by `table_width / widths.sum`. -/
lemma adjustColumnWidths_eq_scale (table_width : ℚ) (l : List ℚ)
    (hS : l.sum ≠ 0) :
    adjustColumnWidths table_width l =
      l.map (fun w => w * (table_width / l.sum)) := by
  unfold adjustColumnWidths
  dsimp only
  have he1 : (l.map fun w => w - w / l.sum * (l.sum - table_width)) =
      l.map (fun w => w * (table_width / l.sum)) := by
    congr 1; funext w; field_simp; ring
  have he2 : (l.map fun w => w + w / l.sum * (table_width - l.sum)) =
      l.map (fun w => w * (table_width / l.sum)) := by
    congr 1; funext w; field_simp; ring
  have hsum1 : (l.map fun w => w * (table_width / l.sum)).sum = table_width := by
    rw [sum_map_mul_right_q]; field_simp
  split_ifs with h1 h2 h3
  · exact absurd (by rw [he1, hsum1] at h2; exact h2) (lt_irrefl _)
  · exact he1
  · exact he2
  · have hle : l.sum ≤ table_width := not_lt.1 h1
    have hge : table_width ≤ l.sum := not_lt.1 h3
    have heq : table_width = l.sum := le_antisymm hge hle
    subst heq
    have hfun : (fun w : ℚ => w * (l.sum / l.sum)) = fun w : ℚ => w := by
      funext w; rw [div_self hS, mul_one]
    rw [hfun]
    exact (List.map_id l).symm

/-- C1: in `Handler.create_table`'s column-width pass, if the computed
widths oversum the template table shape's width every column is reduced by
`(width / total) * overflow`, and if they undersum it every column is
extended by `(width / total) * deficit`; with exact rational arithmetic,
for every nonempty list of positive widths and positive template width the
adjusted widths sum to the template width and each column's fraction of
the total is unchanged. -/
theorem create_table_width_balancing (table_width : ℚ) (widths : List ℚ)
    (hne : widths ≠ []) (hpos : ∀ w ∈ widths, 0 < w)
    (hT : 0 < table_width) :
    (adjustColumnWidths table_width widths).sum = table_width ∧
    (adjustColumnWidths table_width widths).length = widths.length ∧
    ∀ i (hi : i < widths.length)
      (hi2 : i < (adjustColumnWidths table_width widths).length),
      (adjustColumnWidths table_width widths)[i] /
          (adjustColumnWidths table_width widths).sum =
        widths[i] / widths.sum := by
  have hS : 0 < widths.sum := List.sum_pos widths hpos hne
  have hS0 : widths.sum ≠ 0 := ne_of_gt hS
  have he := adjustColumnWidths_eq_scale table_width widths hS0
  have hsum : (adjustColumnWidths table_width widths).sum = table_width := by
    rw [he, sum_map_mul_right_q]; field_simp
  refine ⟨hsum, by rw [he]; simp, ?_⟩
  intro i hi hi2
  revert hi2
  rw [hsum, he]
  intro hi2
  rw [List.getElem_map]
  rw [div_eq_div_iff (ne_of_gt hT) hS0]
  field_simp

/-- C1 witness: the balancing theorem applied to template width 2 and
widths `[1, 3]` (overflow case). -/
theorem create_table_width_balancing_witness :
    (adjustColumnWidths 2 [1, 3] : List ℚ).sum = 2 ∧
    (adjustColumnWidths 2 [1, 3] : List ℚ).length = 2 := by
  have h := create_table_width_balancing 2 [1, 3] (by simp)
    (by intro w hw; fin_cases hw <;> norm_num)
    (by norm_num)
  exact ⟨h.1, h.2.1⟩

/-! ## Theorem for C3 -/

lemma headerAccesses_bounds (p : TableParams) :
    ∀ rc ∈ headerAccesses p, rc.1 < numRows p ∧ rc.2 < numCols p := by
  intro rc hrc
  unfold headerAccesses at hrc
  by_cases hh : p.header
  · rw [if_pos hh] at hrc
    simp only [List.mem_flatMap, List.mem_range, List.mem_map] at hrc
    obtain ⟨level, hlevel, i, hi, rfl⟩ := hrc
    exact ⟨by unfold numRows; rw [if_pos hh]; omega, hi⟩
  · rw [if_neg hh] at hrc
    simp at hrc

lemma indexAccesses_bounds (p : TableParams) :
    ∀ rc ∈ indexAccesses p, rc.1 < numRows p ∧ rc.2 < numCols p := by
  intro rc hrc
  unfold indexAccesses at hrc
  by_cases hx : p.index
  · rw [if_pos hx] at hrc
    simp only [List.mem_flatMap, List.mem_range, List.mem_map] at hrc
    obtain ⟨level, hlevel, i, hi, rfl⟩ := hrc
    exact ⟨hi, by unfold numCols; rw [if_pos hx]; omega⟩
  · rw [if_neg hx] at hrc
    simp at hrc

lemma dataAccesses_bounds (p : TableParams) :
    ∀ rc ∈ dataAccesses p, rc.1 < numRows p ∧ rc.2 < numCols p := by
  intro rc hrc
  unfold dataAccesses at hrc
  simp only [List.mem_flatMap, List.mem_range, List.mem_map] at hrc
  obtain ⟨row, hrow, col, hcol, rfl⟩ := hrc
  constructor
  · unfold numRows; omega
  · unfold numCols; omega

lemma columnTotalsAccesses_bounds (p : TableParams)
    (hct : p.column_totals = true → 1 ≤ p.nRows) :
    ∀ rc ∈ columnTotalsAccesses p, rc.1 < numRows p ∧ rc.2 < numCols p := by
  intro rc hrc
  unfold columnTotalsAccesses at hrc
  by_cases hc : p.column_totals
  · rw [if_pos hc] at hrc
    simp only [List.mem_map, List.mem_range] at hrc
    obtain ⟨i, hi, rfl⟩ := hrc
    have h1 : 1 ≤ p.nRows := hct hc
    constructor
    · unfold numRows; split <;> omega
    · split <;> omega
  · rw [if_neg hc] at hrc
    simp at hrc

lemma rowTotalsAccesses_bounds (p : TableParams)
    (hrt : p.row_totals = true → 1 ≤ p.nCols) :
    ∀ rc ∈ rowTotalsAccesses p, rc.1 < numRows p ∧ rc.2 < numCols p := by
  intro rc hrc
  unfold rowTotalsAccesses at hrc
  by_cases hr : p.row_totals
  · rw [if_pos hr] at hrc
    simp only [List.mem_map, List.mem_range] at hrc
    obtain ⟨i, hi, rfl⟩ := hrc
    have h1 : 1 ≤ p.nCols := hrt hr
    constructor
    · split <;> omega
    · unfold numCols; split <;> omega
  · rw [if_neg hr] at hrc
    simp at hrc

/-- C3: every `table.cell(r, c)` access performed by the header, index,
data and totals-formatting passes of `Handler.create_table` lies within
the inserted table: `r < num_rows` and `c < num_cols`, where `num_rows`
is the (totals-augmented) row count plus the number of column levels when
`header` is on and `num_cols` is the column count plus the number of
index levels when `index` is on.  The hypotheses record the pandas
invariants: a totals row (column) makes the frame nonempty on that axis. -/
theorem create_table_cell_accesses_in_bounds (p : TableParams)
    (hct : p.column_totals = true → 1 ≤ p.nRows)
    (hrt : p.row_totals = true → 1 ≤ p.nCols) :
    ∀ rc ∈ createTableCellAccesses p, rc.1 < numRows p ∧ rc.2 < numCols p := by
  intro rc hrc
  unfold createTableCellAccesses at hrc
  simp only [List.mem_append] at hrc
  rcases hrc with (((h | h) | h) | h) | h
  · exact headerAccesses_bounds p rc h
  · exact indexAccesses_bounds p rc h
  · exact dataAccesses_bounds p rc h
  · exact columnTotalsAccesses_bounds p hct rc h
  · exact rowTotalsAccesses_bounds p hrt rc h

/-! ## Theorem for C10 -/

lemma pyOrSpace_ne_empty (lab : Option String) : pyOrSpace lab ≠ "" := by
  cases lab with
  | none => simp [pyOrSpace]
  | some s =>
    simp only [pyOrSpace]
    split_ifs with h
    · simp
    · exact h

/-- C10: every cell text written by the header, index and data passes of
`Handler.create_table` is non-empty: a destined label or value that is
`None` or the empty string is replaced by a single space `' '` by the
`... or ' '` idiom, and any other string is written unchanged. -/
theorem create_table_written_text_nonempty :
    (∀ (index : Bool) (idxNlevels : ℕ) (columnsNames : List (Option String))
       (colValue : ℕ → ℕ → String) (level i : ℕ) (lab : Option String),
       headerCellLabel index idxNlevels columnsNames colValue level i =
         some lab → pyOrSpace lab ≠ "") ∧
    (∀ (header : Bool) (colNlevels : ℕ) (indexNames : List (Option String))
       (idxValue : ℕ → ℕ → String) (level i : ℕ) (lab : Option String),
       indexCellLabel header colNlevels indexNames idxValue level i =
         some lab → pyOrSpace lab ≠ "") ∧
    (∀ s : String, dataCellText s ≠ "") ∧
    pyOrSpace Option.none = " " ∧ pyOrSpace (some "") = " " := by
  refine ⟨fun _ _ _ _ _ _ lab _ => pyOrSpace_ne_empty lab,
    fun _ _ _ _ _ _ lab _ => pyOrSpace_ne_empty lab,
    fun s => pyOrSpace_ne_empty (some s), rfl, by simp [pyOrSpace]⟩

/-- C10 witness: the non-emptiness theorem applied to a header cell whose
destined column value is the empty string. -/
theorem create_table_written_text_nonempty_witness :
    pyOrSpace (some "") ≠ "" :=
  create_table_written_text_nonempty.1 false 1 [] (fun _ _ => "") 0 0
    (some "") rfl

/-! ## Theorem for C5 -/

lemma getD_map_lt {α β : Type} (l : List α) (g : α → β) (d : β) (i : ℕ)
    (h : i < l.length) : (l.map g).getD i d = g l[i] := by
  simp [List.getD_eq_getElem?_getD, List.getElem?_map,
    List.getElem?_eq_getElem h]

lemma range_map_getD {α : Type} (l : List α) (d : α) :
    (List.range l.length).map (fun j => l.getD j d) = l := by
  apply List.ext_getElem
  · simp
  · intro i h1 h2
    simp [List.getElem_map, List.getElem_range, List.getD_eq_getElem?_getD,
      List.getElem?_eq_getElem h2]

lemma reindex_row_id (cols : List String) (row : List (Option ℚ))
    (hnd : cols.Nodup) (hlen : row.length = cols.length) :
    cols.map (fun col => row.getD (cols.indexOf col) Option.none) = row := by
  apply List.ext_getElem
  · simp [hlen]
  · intro i h1 h2
    have hic : i < cols.length := by simpa using h1
    rw [List.getElem_map, List.indexOf_getElem hnd i hic]
    simp [List.getD_eq_getElem?_getD, List.getElem?_eq_getElem h2]

lemma map_indexOf_eq_enum {β : Type} (cols : List String)
    (g : ℕ → String → β) (hnd : cols.Nodup) :
    cols.map (fun col => g (cols.indexOf col) col) =
      cols.enum.map (fun jc => g jc.1 jc.2) := by
  apply List.ext_getElem
  · simp
  · intro i h1 h2
    have hic : i < cols.length := by simpa using h1
    simp only [List.getElem_map, List.getElem_enum]
    rw [List.indexOf_getElem hnd i hic]

lemma colOfValues_transpose (v : List (List (Option ℚ))) (c i : ℕ)
    (hi : i < v.length) (hrect : ∀ row ∈ v, row.length = c) :
    colOfValues (transposeValues v c) i = v[i] := by
  have h1 : colOfValues (transposeValues v c) i =
      (List.range c).map (fun j => (colOfValues v j).getD i Option.none) := by
    unfold colOfValues transposeValues
    rw [List.map_map]
    rfl
  rw [h1]
  have h2 : (fun j => (colOfValues v j).getD i Option.none) =
      fun j => (v[i]).getD j Option.none := by
    funext j
    unfold colOfValues
    exact getD_map_lt v _ _ i hi
  rw [h2]
  have hc : (v[i] : List (Option ℚ)).length = c := hrect _ (List.getElem_mem hi)
  calc (List.range c).map (fun j => (v[i]).getD j Option.none)
      = (List.range (v[i] : List (Option ℚ)).length).map
          (fun j => (v[i]).getD j Option.none) := by rw [hc]
    _ = v[i] := range_map_getD _ _

/-- The axis-0 body of `add_totals`: aggregate, concat below, reindex
(identity for nodup rectangular frames), restore names. -/
lemma addTotals_axis0_eq (g : Frame) (lbl : String) (m : List ℚ → ℚ)
    (am : String → Option (List ℚ → ℚ))
    (hnd : g.columns.Nodup)
    (hrect : ∀ row ∈ g.values, row.length = g.columns.length) :
    addTotals g lbl m am 0 =
      ⟨g.index ++ [lbl], g.indexName, g.columns, g.columnsName,
        g.values ++ [claimedTotalsRow g m am]⟩ := by
  have h01 : ¬ (0 : ℕ) = 1 := by norm_num
  unfold addTotals
  simp only [if_neg h01]
  congr 1
  rw [List.map_append, List.map_singleton]
  have hc : (g.columns.map (fun col =>
      some (aggColumn g ((am col).getD m) col))).length = g.columns.length := by
    simp
  rw [reindex_row_id _ _ hnd hc]
  have hdata : g.values.map (fun row => g.columns.map (fun col =>
      row.getD (g.columns.indexOf col) Option.none)) = g.values := by
    have := List.map_congr_left (l := g.values)
      (f := fun row => g.columns.map (fun col =>
        row.getD (g.columns.indexOf col) Option.none)) (g := id)
      (fun row hr => reindex_row_id _ _ hnd (hrect row hr))
    simpa using this
  rw [hdata]
  congr 1
  have hagg : (fun col => some (aggColumn g ((am col).getD m) col)) =
      fun col => some (((am col).getD m)
        ((colOfValues g.values (g.columns.indexOf col)).map
          (fun v => v.getD 0))) := by
    funext col; rfl
  rw [hagg]
  exact List.cons_eq_cons.2 ⟨map_indexOf_eq_enum g.columns
    (fun j col => some (((am col).getD m)
      ((colOfValues g.values j).map (fun v => v.getD 0)))) hnd, rfl⟩

/-- C5: `pandasDOC.Table.add_totals` with axis 0 returns the input frame
with exactly one row appended, labeled `totals_label`, whose entry for
each column is that column aggregated with nulls filled as 0, under the
method of `totals_aggmap` when the column is mapped and `totals_method`
otherwise; column order and index names are preserved.  With axis 1 it
returns the transposed analogue: one column appended, labeled
`totals_label`, holding each row's aggregate keyed by index label.
(Flat string-labelled frames; duplicate labels excluded, values
rectangular.) -/
theorem add_totals_appends_aggregates (f : Frame) (lbl : String)
    (m : List ℚ → ℚ) (am : String → Option (List ℚ → ℚ))
    (hndC : f.columns.Nodup) (hndI : f.index.Nodup)
    (hrect : ∀ row ∈ f.values, row.length = f.columns.length)
    (hvlen : f.values.length = f.index.length) :
    addTotals f lbl m am 0 =
      ⟨f.index ++ [lbl], f.indexName, f.columns, f.columnsName,
        f.values ++ [claimedTotalsRow f m am]⟩ ∧
    addTotals f lbl m am 1 =
      ⟨f.index, f.indexName, f.columns ++ [lbl], f.columnsName,
        (f.values.zip f.index).map (fun ri =>
          ri.1 ++ [some (claimedRowTotal ri.2 ri.1 m am)])⟩ := by
  refine ⟨addTotals_axis0_eq f lbl m am hndC hrect, ?_⟩
  have hrectT : ∀ row ∈ (f.T).values, row.length = (f.T).columns.length := by
    intro row hr
    simp only [Frame.T, transposeValues] at hr ⊢
    rcases List.mem_map.1 hr with ⟨j, _, rfl⟩
    simp [colOfValues, hvlen]
  have hT : addTotals f lbl m am 1 = (addTotals f.T lbl m am 0).T := rfl
  rw [hT, addTotals_axis0_eq f.T lbl m am hndI hrectT]
  unfold Frame.T
  congr 1
  apply List.ext_getElem
  · simp [transposeValues, List.length_zip, hvlen]
  · intro i h1 h2
    have hiI : i < f.index.length := by
      simpa [transposeValues] using h1
    have hiV : i < f.values.length := by rw [hvlen]; exact hiI
    rw [List.getElem_map, List.getElem_zip]
    have hL : (transposeValues (transposeValues f.values f.columns.length ++
        [claimedTotalsRow
          ⟨f.columns, f.columnsName, f.index, f.indexName,
            transposeValues f.values f.columns.length⟩ m am])
        f.index.length)[i] =
        colOfValues (transposeValues f.values f.columns.length ++
          [claimedTotalsRow
            ⟨f.columns, f.columnsName, f.index, f.indexName,
              transposeValues f.values f.columns.length⟩ m am]) i := by
      simp [transposeValues, List.getElem_map, List.getElem_range]
    rw [hL]
    unfold colOfValues
    rw [List.map_append, List.map_singleton]
    have hcol : (transposeValues f.values f.columns.length).map
        (fun row => row.getD i Option.none) = f.values[i] := by
      have := colOfValues_transpose f.values f.columns.length i hiV hrect
      simpa [colOfValues] using this
    rw [hcol]
    congr 1
    have hrow' : (claimedTotalsRow
        ⟨f.columns, f.columnsName, f.index, f.indexName,
          transposeValues f.values f.columns.length⟩ m am).getD i Option.none =
        some (claimedRowTotal f.index[i] f.values[i] m am) := by
      unfold claimedTotalsRow
      rw [getD_map_lt _ _ _ i (by simpa [List.enum_length] using hiI)]
      rw [List.getElem_enum]
      unfold claimedRowTotal
      have := colOfValues_transpose f.values f.columns.length i hiV hrect
      simp only [this]
    rw [hrow']

/-- C5 witness: `add_totals` on a concrete 2×2 frame with a null, default
sum aggregation, axis 0. -/
theorem add_totals_appends_aggregates_witness :
    addTotals
      ⟨["r1", "r2"], some "idx", ["a", "b"], Option.none,
        [[some 1, Option.none], [some 2, some 3]]⟩
      "Totals" (fun l => l.sum) (fun _ => Option.none) 0 =
      ⟨["r1", "r2", "Totals"], some "idx", ["a", "b"], Option.none,
        [[some 1, Option.none], [some 2, some 3], [some 3, some 3]]⟩ := by
  have h := (add_totals_appends_aggregates
    ⟨["r1", "r2"], some "idx", ["a", "b"], Option.none,
      [[some 1, Option.none], [some 2, some 3]]⟩
    "Totals" (fun l => l.sum) (fun _ => Option.none)
    (by decide) (by decide)
    (by intro row hr; fin_cases hr <;> rfl) rfl).1
  rw [h]
  norm_num [claimedTotalsRow, colOfValues, List.enum]

/-! ## Theorems for C6 and C4 -/

/-- C6: the claim fails on the code.  For a 3-column table (no index) and
`merge_header = {'start': 0, 'end': 1}` the code computes `length = 2`
and sets `gridSpan = 2` on column 0, but the slice `[start:end]` excludes
the end column, so *no* cell is marked `hMerge` — the claim requires the
span "through the end column", i.e. `hMerge` on column 1.  (`length =
end - start + 1` in the same lines shows the inclusive intent, so the
exclusive slice contradicts the code's own arithmetic.) -/
theorem merge_header_end_cell_unmarked :
    mergeHeaderOps 3 0 1 = some (0, 2, []) ∧
    (mergeHeaderOps 3 0 1).map (fun r => r.2.2) ≠ some [1] := by
  decide

/-- C4: the claim fails on `Handler.create_table`.  With default options
(no totals), the name `df` still aliases the caller's object when the
numeric-to-string conversion loop runs, so the caller's frame is mutated
in place: for any number format, a frame with the single numeric value 1
comes back with that value replaced by a formatted string (its values and
dtypes changed).  (`pandasDOC.Table.convert` copies — `data =
self.df.copy()` — so the claim holds there.) -/
theorem create_table_mutates_caller_frame :
    ∀ fmt : ℚ → String,
      createTableCallerFrame ⟨["r0"], ["a"], [true], [[PyVal.num 1]]⟩
          false false fmt ≠
        ⟨["r0"], ["a"], [true], [[PyVal.num 1]]⟩ := by
  intro fmt h
  simp [createTableCallerFrame, createTableDfMutation, mutateCell] at h

/-! ## Theorem for C2 -/

lemma takeWhile_getD_spec {α : Type} (p : α → Bool) (l : List α) (d : α) :
    (∀ i, i < (l.takeWhile p).length → p (l.getD i d) = true) ∧
    ((l.takeWhile p).length < l.length →
      p (l.getD (l.takeWhile p).length d) = false) := by
  induction l with
  | nil => simp
  | cons a t ih =>
    by_cases hpa : p a = true
    · rw [List.takeWhile_cons_of_pos hpa]
      constructor
      · intro i hi
        cases i with
        | zero => simpa [List.getD_cons_zero] using hpa
        | succ m =>
          rw [List.getD_cons_succ]
          exact ih.1 m (by simpa using hi)
      · intro hlen
        rw [List.length_cons, List.getD_cons_succ]
        exact ih.2 (by simpa using hlen)
    · rw [List.takeWhile_cons_of_neg hpa]
      refine ⟨by simp, fun _ => ?_⟩
      simpa [List.getD_cons_zero] using hpa

lemma getD_drop {α : Type} (l : List α) (n i : ℕ) (d : α) :
    (l.drop n).getD i d = l.getD (n + i) d := by
  simp [List.getD_eq_getElem?_getD, List.getElem?_drop]

lemma runLen_pos (l : List String) (j : ℕ) : 1 ≤ runLen l j :=
  Nat.le_add_right 1 _

lemma runLen_two_le (l : List String) (j : ℕ) (hj : j + 1 < l.length)
    (heq : l.getD j "" = l.getD (j + 1) "") : 2 ≤ runLen l j := by
  unfold runLen
  by_contra hlt
  push_neg at hlt
  have htw : ((l.drop (j + 1)).takeWhile
      (fun d => d == l.getD j "")).length = 0 := by omega
  have hdl : ((l.drop (j + 1)).takeWhile
      (fun d => d == l.getD j "")).length < (l.drop (j + 1)).length := by
    rw [htw, List.length_drop]; omega
  have hspec := (takeWhile_getD_spec (fun d => d == l.getD j "")
    (l.drop (j + 1)) "").2 hdl
  rw [htw, getD_drop, Nat.add_zero] at hspec
  rw [beq_eq_false_iff_ne] at hspec
  exact hspec heq.symm

lemma runLen_le (l : List String) (j : ℕ) (hj : j < l.length) :
    j + runLen l j ≤ l.length := by
  unfold runLen
  have h1 := (List.takeWhile_sublist
    (l := l.drop (j + 1)) (fun d => d == l.getD j "")).length_le
  rw [List.length_drop] at h1
  omega

lemma runLen_all_eq (l : List String) (j t : ℕ) (ht : t < runLen l j) :
    l.getD (j + t) "" = l.getD j "" := by
  rcases Nat.eq_zero_or_pos t with rfl | htpos
  · simp
  · have htw : t - 1 < ((l.drop (j + 1)).takeWhile
        (fun d => d == l.getD j "")).length := by
      unfold runLen at ht; omega
    have hspec := (takeWhile_getD_spec (fun d => d == l.getD j "")
      (l.drop (j + 1)) "").1 (t - 1) htw
    rw [getD_drop] at hspec
    have harith : j + 1 + (t - 1) = j + t := by omega
    rw [harith, beq_iff_eq] at hspec
    exact hspec

lemma runLen_maximal_right (l : List String) (j : ℕ)
    (hlt : j + runLen l j < l.length) :
    l.getD (j + runLen l j) "" ≠ l.getD j "" := by
  have htw : ((l.drop (j + 1)).takeWhile
      (fun d => d == l.getD j "")).length < (l.drop (j + 1)).length := by
    rw [List.length_drop]
    unfold runLen at hlt
    omega
  have hspec := (takeWhile_getD_spec (fun d => d == l.getD j "")
    (l.drop (j + 1)) "").2 htw
  rw [getD_drop] at hspec
  have harith : j + 1 + ((l.drop (j + 1)).takeWhile
      (fun d => d == l.getD j "")).length = j + runLen l j := by
    unfold runLen; omega
  rw [harith, beq_eq_false_iff_ne] at hspec
  exact hspec

/-- Membership in the direct scan: `(s, k)` is recorded from scan start
`j` exactly when `s ≥ j` starts two equal adjacent values, `k` is the
run length at `s`, and `s` is either the scan start or preceded by a
different value. -/
lemma mem_maximalRunsFrom (l : List String) :
    ∀ n j, l.length - j ≤ n → ∀ s k,
      ((s, k) ∈ maximalRunsFrom l j ↔
        (j ≤ s ∧ s + 1 < l.length ∧ l.getD s "" = l.getD (s + 1) "" ∧
         k = runLen l s ∧ (s = j ∨ l.getD (s - 1) "" ≠ l.getD s ""))) := by
  intro n
  induction n with
  | zero =>
    intro j hj s k
    rw [maximalRunsFrom, if_neg (by omega)]
    simp only [List.not_mem_nil, false_iff]
    rintro ⟨h1, h2, _, _, _⟩
    omega
  | succ n ih =>
    intro j hj s k
    rw [maximalRunsFrom]
    by_cases h1 : j + 1 < l.length
    · rw [if_pos h1]
      by_cases h2 : l.getD j "" = l.getD (j + 1) ""
      · rw [if_pos (beq_iff_eq.mpr h2)]
        have h2le : 2 ≤ runLen l j := runLen_two_le l j h1 h2
        have hle : j + runLen l j ≤ l.length := runLen_le l j (by omega)
        rw [List.mem_cons]
        constructor
        · rintro (heq | hmem)
          · rw [Prod.mk.injEq] at heq
            obtain ⟨rfl, rfl⟩ := heq
            exact ⟨le_refl _, h1, h2, rfl, Or.inl rfl⟩
          · obtain ⟨hjs, hs1, hseq, hk, hbd⟩ :=
              (ih (j + runLen l j) (by omega) s k).1 hmem
            refine ⟨by omega, hs1, hseq, hk, Or.inr ?_⟩
            rcases hbd with rfl | hne
            · have hin : l.getD (j + (runLen l j - 1)) "" = l.getD j "" :=
                runLen_all_eq l j _ (by omega)
              have hmax : l.getD (j + runLen l j) "" ≠ l.getD j "" :=
                runLen_maximal_right l j (by omega)
              intro hcontra
              apply hmax
              calc l.getD (j + runLen l j) ""
                  = l.getD (j + runLen l j - 1) "" := hcontra.symm
                _ = l.getD (j + (runLen l j - 1)) "" := by
                    have : j + runLen l j - 1 = j + (runLen l j - 1) := by omega
                    rw [this]
                _ = l.getD j "" := hin
            · exact hne
        · rintro ⟨hjs, hs1, hseq, hk, hbd⟩
          rcases eq_or_lt_of_le hjs with rfl | hjlt
          · left
            rw [hk]
          · right
            apply (ih (j + runLen l j) (by omega) s k).2
            have hinterior : ∀ m, j < m → m < j + runLen l j →
                l.getD (m - 1) "" = l.getD m "" := by
              intro m hm1 hm2
              have ha : l.getD (j + (m - j)) "" = l.getD j "" :=
                runLen_all_eq l j _ (by omega)
              have hb : l.getD (j + (m - j - 1)) "" = l.getD j "" :=
                runLen_all_eq l j _ (by omega)
              have hsj : j + (m - j) = m := by omega
              have hsj1 : j + (m - j - 1) = m - 1 := by omega
              rw [hsj] at ha
              rw [hsj1] at hb
              exact hb.trans ha.symm
            have hne : l.getD (s - 1) "" ≠ l.getD s "" := by
              rcases hbd with rfl | hne
              · omega
              · exact hne
            have hge : j + runLen l j ≤ s := by
              by_contra hno
              push_neg at hno
              exact hne (hinterior s hjlt hno)
            exact ⟨hge, hs1, hseq, hk, Or.inr hne⟩
      · rw [if_neg (by simpa [beq_iff_eq] using h2)]
        rw [ih (j + 1) (by omega) s k]
        constructor
        · rintro ⟨hjs, hs1, hseq, hk, hbd⟩
          refine ⟨by omega, hs1, hseq, hk, ?_⟩
          rcases hbd with rfl | hne
          · right
            simpa using h2
          · exact Or.inr hne
        · rintro ⟨hjs, hs1, hseq, hk, hbd⟩
          have hjlt : j + 1 ≤ s := by
            rcases eq_or_lt_of_le hjs with rfl | h
            · exact absurd hseq h2
            · omega
          refine ⟨hjlt, hs1, hseq, hk, ?_⟩
          rcases hbd with rfl | hne
          · exact absurd hseq h2
          · rcases eq_or_lt_of_le hjlt with rfl | h
            · exact Or.inl rfl
            · exact Or.inr hne
    · rw [if_neg h1]
      simp only [List.not_mem_nil, false_iff]
      rintro ⟨hjs, hs1, _, _, _⟩
      omega

/-- The merging loop computes the direct scan.  Part one: from a clear
merge state at cell `i`, the loop records exactly what the scan from
`j = i - offset` records, at table coordinates (fuel covering the
level).  Part two: inside a run of length `runLen l j` started at
`j` (merge state set at cell `offset + j`), the loop consumes the run
interior and then continues the scan past the run. -/
lemma styleIndexLoop_spec (l : List String) (texts : ℕ → String)
    (offset : ℕ) :
    ∀ fuel : ℕ,
      (∀ i ms mv, offset + l.length ≤ i + fuel →
        styleIndexLoop l texts offset fuel i false ms mv =
          (maximalRunsFrom l (i - offset)).map
            (fun sk => (offset + sk.1, sk.2, texts (offset + sk.1)))) ∧
      (∀ j p, j + 1 < l.length →
        l.getD j "" = l.getD (j + 1) "" → 1 ≤ p → p ≤ runLen l j - 1 →
        offset + l.length ≤ (offset + j + p) + fuel →
        styleIndexLoop l texts offset fuel (offset + j + p) true
            (offset + j) (runLen l j) =
          (maximalRunsFrom l (j + runLen l j)).map
            (fun sk => (offset + sk.1, sk.2, texts (offset + sk.1)))) := by
  intro fuel
  induction fuel with
  | zero =>
    constructor
    · intro i ms mv hfuel
      rw [maximalRunsFrom, if_neg (by omega)]
      rfl
    · intro j p hj heq hp1 hp2 hfuel
      have h2le := runLen_two_le l j hj heq
      have hle := runLen_le l j (by omega)
      omega
  | succ fuel ih =>
    constructor
    · intro i ms mv hfuel
      simp only [styleIndexLoop]
      by_cases hoi : offset ≤ i
      · rw [if_pos hoi]
        by_cases hlen : (i - offset) + 1 < l.length
        · rw [if_pos hlen]
          by_cases heq : l.getD (i - offset) "" = l.getD (i - offset + 1) ""
          · rw [if_pos (by simpa using heq)]
            have hio : offset + (i - offset) = i := by omega
            have h2le := runLen_two_le l (i - offset) hlen heq
            have hB := ih.2 (i - offset) 1 hlen heq (le_refl 1)
              (by omega) (by omega)
            rw [hio] at hB
            rw [hB]
            conv_rhs => rw [maximalRunsFrom, if_pos hlen,
              if_pos (beq_iff_eq.mpr heq)]
            rw [List.map_cons, hio]
          · rw [if_neg (by simpa using heq)]
            rw [if_neg (by simp)]
            rw [ih.1 (i + 1) ms mv (by omega)]
            rw [show i + 1 - offset = (i - offset) + 1 from by omega]
            conv_rhs => rw [maximalRunsFrom, if_pos hlen,
              if_neg (by simpa using heq)]
        · rw [if_neg hlen]
          rw [if_neg (by simp), if_neg (by simp)]
          rw [ih.1 (i + 1) ms mv (by omega)]
          rw [show maximalRunsFrom l (i + 1 - offset) = [] from by
            rw [maximalRunsFrom, if_neg (by omega)]]
          rw [show maximalRunsFrom l (i - offset) = [] from by
            rw [maximalRunsFrom, if_neg (by omega)]]
      · rw [if_neg hoi]
        rw [ih.1 (i + 1) ms mv (by omega)]
        rw [show i + 1 - offset = i - offset from by omega]
    · intro j p hj heq hp1 hp2 hfuel
      have h2le := runLen_two_le l j hj heq
      have hle := runLen_le l j (by omega)
      simp only [styleIndexLoop]
      rw [if_pos (show offset ≤ offset + j + p by omega)]
      rw [show offset + j + p - offset = j + p from by omega]
      by_cases hcase : p < runLen l j - 1
      · rw [if_pos (show j + p + 1 < l.length by omega)]
        have hEp : l.getD (j + p) "" = l.getD j "" :=
          runLen_all_eq l j p (by omega)
        have hEp1 : l.getD (j + (p + 1)) "" = l.getD j "" :=
          runLen_all_eq l j (p + 1) (by omega)
        have heq2 : l.getD (j + p) "" = l.getD (j + p + 1) "" := by
          rw [hEp, show j + p + 1 = j + (p + 1) from by omega]
          exact hEp1.symm
        rw [if_neg (by simp)]
        rw [if_neg (by simpa using heq2)]
        have hB := ih.2 j (p + 1) hj heq (by omega) (by omega) (by omega)
        rw [show offset + j + (p + 1) = offset + j + p + 1 from by omega]
          at hB
        exact hB
      · have hpk : p = runLen l j - 1 := by omega
        by_cases hend : j + p + 1 < l.length
        · rw [if_pos hend]
          have hEp : l.getD (j + p) "" = l.getD j "" :=
            runLen_all_eq l j p (by omega)
          have hmax : l.getD (j + runLen l j) "" ≠ l.getD j "" :=
            runLen_maximal_right l j (by omega)
          have hne2 : ¬ l.getD (j + p) "" = l.getD (j + p + 1) "" := by
            rw [hEp, show j + p + 1 = j + runLen l j from by omega]
            exact fun hc => hmax hc.symm
          rw [if_neg (by simp)]
          rw [if_pos (by simpa using hne2)]
          rw [ih.1 (offset + j + p + 1) _ _ (by omega)]
          rw [show offset + j + p + 1 - offset = j + runLen l j from
            by omega]
        · rw [if_neg hend]
          rw [if_neg (by
            rintro ⟨-, -, hlt⟩
            omega)]
          rw [if_pos (⟨trivial, by omega, by omega⟩)]
          rw [ih.1 (offset + j + p + 1) _ _ (by omega)]
          rw [show offset + j + p + 1 - offset = j + runLen l j from
            by omega]

/-- A pair `(s, k)` is a maximal run iff `s` starts two equal adjacent
values, is not preceded by an equal value, and `k` is the computed
`mergespan` at `s`. -/
lemma isMaximalRun_iff_runLen (l : List String) (s k : ℕ) :
    isMaximalRun l s k ↔
      (s + 1 < l.length ∧ l.getD s "" = l.getD (s + 1) "" ∧
       k = runLen l s ∧ (s = 0 ∨ l.getD (s - 1) "" ≠ l.getD s "")) := by
  constructor
  · rintro ⟨hk2, hbound, hall, hleft, hright⟩
    have hs1 : s + 1 < l.length := by omega
    have heq : l.getD s "" = l.getD (s + 1) "" := (hall 1 (by omega)).symm
    refine ⟨hs1, heq, ?_, hleft⟩
    have hge : k ≤ runLen l s := by
      by_contra hlt
      push_neg at hlt
      have hmax : l.getD (s + runLen l s) "" ≠ l.getD s "" :=
        runLen_maximal_right l s (by omega)
      exact hmax (hall (runLen l s) (by omega))
    have hle2 : runLen l s ≤ k := by
      by_contra hlt
      push_neg at hlt
      have hin : l.getD (s + k) "" = l.getD s "" :=
        runLen_all_eq l s k (by omega)
      rcases hright with hlen | hne
      · have := runLen_le l s (by omega)
        omega
      · exact hne hin
    omega
  · rintro ⟨hs1, heq, rfl, hleft⟩
    have h2 := runLen_two_le l s hs1 heq
    have hle := runLen_le l s (by omega)
    refine ⟨h2, hle, fun t ht => runLen_all_eq l s t ht, hleft, ?_⟩
    rcases lt_or_eq_of_le hle with hlt | heq2
    · exact Or.inr (runLen_maximal_right l s hlt)
    · exact Or.inl heq2

/-- C2: in `pandasDOC.Table.style_index` with `merge_indices` enabled,
for one level of the index (axis 0) or header (axis 1): a merge of span
`k` with origin text `t` is performed at table cell `s` exactly when
`(s - offset, k)` is a maximal run of `k ≥ 2` equal adjacent values of
the level (so exactly the `k` cells of each maximal run are merged into
one span of length `k`, and no cell outside such a run is merged), and
`t` — the text the merged cell is reset to — is the text the run's
first cell had before the merge. -/
theorem style_index_merges_maximal_runs (l : List String)
    (texts : ℕ → String) (offset numcells : ℕ)
    (hnum : offset + l.length ≤ numcells) (s k : ℕ) (t : String) :
    (s, k, t) ∈ styleIndexMerges l texts offset numcells ↔
      (offset ≤ s ∧ isMaximalRun l (s - offset) k ∧ t = texts s) := by
  unfold styleIndexMerges
  rw [(styleIndexLoop_spec l texts offset numcells).1 0 0 0 (by omega)]
  rw [show (0 : ℕ) - offset = 0 from by omega]
  rw [List.mem_map]
  constructor
  · rintro ⟨⟨s0, k0⟩, hmem, heq⟩
    rw [Prod.mk.injEq] at heq
    obtain ⟨hs, hkt⟩ := heq
    rw [Prod.mk.injEq] at hkt
    obtain ⟨hk, ht⟩ := hkt
    subst hs hk ht
    rw [mem_maximalRunsFrom l l.length 0 (by omega) s0 k0] at hmem
    obtain ⟨-, hs1, hseq, hkr, hbd⟩ := hmem
    refine ⟨by omega, ?_, rfl⟩
    rw [show offset + s0 - offset = s0 from by omega]
    rw [isMaximalRun_iff_runLen]
    refine ⟨hs1, hseq, hkr, ?_⟩
    rcases hbd with rfl | hne
    · exact Or.inl rfl
    · exact Or.inr hne
  · rintro ⟨hs, hmax, rfl⟩
    rw [isMaximalRun_iff_runLen] at hmax
    obtain ⟨hs1, hseq, hk, hbd⟩ := hmax
    refine ⟨(s - offset, k), ?_, ?_⟩
    · rw [mem_maximalRunsFrom l l.length 0 (by omega) (s - offset) k]
      refine ⟨Nat.zero_le _, hs1, hseq, hk, ?_⟩
      rcases hbd with h0 | hne
      · exact Or.inl h0
      · exact Or.inr hne
    · rw [show offset + (s - offset) = s from by omega]

/-- C2 witness: the characterization applied to the level values
`["a", "a", "b"]` with one header cell (`offset = 1`): the run of two
`"a"`s is merged at table cell 1 with span 2 and origin text `"t"`. -/
theorem style_index_merges_maximal_runs_witness :
    ((1, 2, "t") ∈ styleIndexMerges ["a", "a", "b"] (fun _ => "t") 1 5) ∧
    isMaximalRun ["a", "a", "b"] 0 2 :=
  ⟨(style_index_merges_maximal_runs ["a", "a", "b"] (fun _ => "t") 1 5
      (by norm_num) 1 2 "t").2 ⟨by norm_num, by decide, rfl⟩, by decide⟩

/-- C3 witness: the bounds theorem applied to a concrete 2×2 frame with
single-level header and index, all options on, at the data-pass access
`(2, 2)`. -/
theorem create_table_cell_accesses_in_bounds_witness :
    (2, 2).1 < numRows ⟨2, 2, 1, 1, true, true, true, true⟩ ∧
    (2, 2).2 < numCols ⟨2, 2, 1, 1, true, true, true, true⟩ :=
  create_table_cell_accesses_in_bounds ⟨2, 2, 1, 1, true, true, true, true⟩
    (fun _ => by norm_num) (fun _ => by norm_num) (2, 2) (by decide)

end Mspandas
